import Mathlib

/-!
Verification of the domain-input normalization and TLD-suggestion engine of
the file-replicator repository.

The JavaScript/TypeScript sources are shallowly embedded: JS strings are
modelled as `List Char` (`JSStr`), and every source function is translated
into a structurally recursive Lean definition.  Theorems about the claims of
the specification follow the definitions.
-/

namespace FileReplicator

/-- JS strings are modelled as lists of characters. -/
abbrev JSStr := List Char

/-- Whitespace recognised by JS `String.prototype.trim` (the code points that
can realistically occur here: ASCII whitespace, NBSP, ideographic space, BOM). -/
def isJsWs (c : Char) : Bool :=
  c = ' ' || c = '\t' || c = '\n' || c = '\r' || c = '\u000B' || c = '\u000C' ||
  c = '\u00A0' || c = '\u3000' || c = '\uFEFF'

/-- Model of `toLowerCase` on a single character (ASCII range, the only range
exercised by the code and claims). -/
def jsLowerChar (c : Char) : Char :=
  if 65 ≤ c.toNat && c.toNat ≤ 90 then Char.ofNat (c.toNat + 32) else c

/-- Model of `String.prototype.toLowerCase`. -/
def jsLower (l : JSStr) : JSStr := l.map jsLowerChar

/-- Model of `String.prototype.trim`. -/
def jsTrim (l : JSStr) : JSStr :=
  ((l.dropWhile isJsWs).reverse.dropWhile isJsWs).reverse

/-- Characters kept by the regex `[^a-z0-9.-]` removal: `[a-z0-9.-]`
(code points 97..122, 48..57, 46 and 45). -/
def allowedChar (c : Char) : Bool :=
  (97 ≤ c.toNat && c.toNat ≤ 122) || (48 ≤ c.toNat && c.toNat ≤ 57) ||
  c = '.' || c = '-'

/-- Model of `String.prototype.split(sep)` for a one-character separator.
Mirrors JS semantics: `"".split(x) = [""]`, `".".split(".") = ["", ""]`. -/
def splitChar (a : Char) : JSStr → List JSStr
  | [] => [[]]
  | c :: cs =>
    if c = a then [] :: splitChar a cs
    else
      match splitChar a cs with
      | [] => [[c]]
      | q :: qs => (c :: q) :: qs

/-- Model of `Array.prototype.join('.')`. -/
def joinDot (qs : List JSStr) : JSStr := List.intercalate ['.'] qs

/-- Helper for modelling the regexes `[, ]+` -> `.` and `\.{2,}` -> `.`:
every maximal run of characters satisfying `p` is replaced by a single `'.'`.
The Boolean records whether we are inside a run. -/
def runsToDotAux (p : Char → Bool) : Bool → JSStr → JSStr
  | _, [] => []
  | inRun, c :: cs =>
    if p c then
      if inRun then runsToDotAux p true cs
      else '.' :: runsToDotAux p true cs
    else c :: runsToDotAux p false cs

/-- Replace every maximal run of `p`-characters by one dot.  For `p` = "is a
dot" this coincides with the regex `\.{2,}` -> `.` (a single dot is mapped to
a single dot, longer runs are collapsed). -/
def runsToDot (p : Char → Bool) (l : JSStr) : JSStr := runsToDotAux p false l

/-- True for a comma or a space: the regex class `[, ]`. -/
def isCommaSpace (c : Char) : Bool := c = ',' || c = ' '

/-- True for an ASCII dot. -/
def isDot (c : Char) : Bool := c = '.'

/-! ## Embedding of `clean` (self-contained `DomainSearch` variant)

Source (`src/src/components/DomainSearch.tsx`, lines 6-18):
```
function clean(v: string) {
  if (!v) return "";
  return v
    .toLowerCase()
    .trim()
    .replace(/^https?:\/\//, "")
    .replace(/^www\./, "")
    .split("/")[0]
    .split("@").pop() || ""
      .replace(/[^a-z0-9.-]/g, "")
      .replace(/\.{2,}/g, ".");
}
```
Because of JS operator precedence the two trailing `.replace` calls bind to
the string literal `""` of the `||` fallback, not to the `.pop()` result, so
they never act on the extracted host.  The embedding reproduces this: the
result is the host extraction, with `""` as fallback when it is empty. -/

/-- Strip a leading `http://` or `https://` (regex `^https?:\/\/`). -/
def stripHttp (l : JSStr) : JSStr :=
  if ("https://".toList).isPrefixOf l then l.drop 8
  else if ("http://".toList).isPrefixOf l then l.drop 7
  else l

/-- Strip a leading `www.` (regex `^www\.`). -/
def stripWww (l : JSStr) : JSStr :=
  if ("www.".toList).isPrefixOf l then l.drop 4 else l

/-- Embedding of `clean` from the self-contained `DomainSearch` variant. -/
def cleanL (l : JSStr) : JSStr :=
  if l = [] then []
  else
    let r := (splitChar '@'
      ((splitChar '/' (stripWww (stripHttp (jsTrim (jsLower l))))).headD [])).getLastD []
    if r = [] then [] else r

/-- String-level wrapper for `cleanL`. -/
def clean (s : String) : String := ⟨cleanL s.data⟩

/-! ## Embedding of `cleanDomainInput` (strict `DomainSearch` variant)

Source (`src/src/components/DomainSearch.tsx`, lines 299-314). -/

/-- The character pipeline of `cleanDomainInput`: lower-case, trim, map the
CJK punctuation `，` and `。` to `.`, replace runs of `[, ]` by `.`, collapse
runs of dots, and remove every character outside `[a-z0-9.-]`. -/
def sanitizeChars (l : JSStr) : JSStr :=
  (runsToDot isDot
    (runsToDot isCommaSpace
      ((jsTrim (jsLower l)).map
        (fun c => if c = '，' || c = '。' then '.' else c)))).filter allowedChar

/-- Embedding of `cleanDomainInput`: sanitize, then keep only the last four
labels when the label count exceeds five. -/
def cleanDomainInputL (l : JSStr) : JSStr :=
  let cleaned := sanitizeChars l
  let ps := splitChar '.' cleaned
  if ps.length > 5 then joinDot (ps.drop (ps.length - 4)) else cleaned

/-- String-level wrapper for `cleanDomainInputL`. -/
def cleanDomainInput (s : String) : String := ⟨cleanDomainInputL s.data⟩

/-! ## Embedding of the submit-time TLD autocompletion -/

/-- Embedding of `autoCompleteDomain` (`src/src/hooks/useTldSuggestions.ts`,
lines 108-123): trim and lower-case; when there is no dot or the last
character is a dot, drop a trailing dot and append `.com`; otherwise return
the trimmed input. -/
def autoCompleteDomainL (l : JSStr) : JSStr :=
  let t := jsLower (jsTrim l)
  if t = [] then []
  else if t.contains '.' = false || t.getLast? = some '.' then
    (if t.getLast? = some '.' then t.dropLast else t) ++ ".com".toList
  else t

/-- String-level wrapper for `autoCompleteDomainL`. -/
def autoCompleteDomain (s : String) : String := ⟨autoCompleteDomainL s.data⟩

/-- Default `popularTlds` argument of `smartAutoComplete`. -/
def popularDefault : List JSStr :=
  [".com".toList, ".ai".toList, ".io".toList, ".co".toList, ".app".toList]

/-- Embedding of `smartAutoComplete` (`src/src/components/DomainSearch.tsx`,
lines 319-327): empty input is returned as is; input containing a dot is
returned unchanged; otherwise `popularTlds[0]` is appended. -/
def smartAutoCompleteL (pops : List JSStr) (input : JSStr) : JSStr :=
  if input = [] then input
  else if input.contains '.' then input
  else input ++ pops.headD []

/-- String-level wrapper for `smartAutoCompleteL` with the default
`popularTlds`. -/
def smartAutoComplete (s : String) : String := ⟨smartAutoCompleteL popularDefault s.data⟩

/-! ## Embedding of `getSuggestions` (`src/src/hooks/useTldSuggestions.ts`) -/

/-- The `COMMON_TLDS` priority list from `useTldSuggestions.ts`. -/
def commonTlds : List JSStr :=
  ["com".toList, "net".toList, "org".toList, "io".toList, "co".toList,
   "ai".toList, "app".toList, "dev".toList, "cn".toList, "rw".toList]

/-- Model of `Array.prototype.indexOf`: index of the first occurrence, `-1`
when absent. -/
def jsIndexOf : List JSStr → JSStr → Int
  | [], _ => -1
  | y :: ys, x =>
    if y = x then 0
    else if jsIndexOf ys x = -1 then -1 else jsIndexOf ys x + 1

/-- Model of `localeCompare` on the lower-case ASCII label strings occurring
here: code-point lexicographic comparison, result in `{-1, 0, 1}`. -/
def lexCmp : JSStr → JSStr → Int
  | [], [] => 0
  | [], _ :: _ => -1
  | _ :: _, [] => 1
  | a :: as, b :: bs =>
    if a.toNat < b.toNat then -1
    else if b.toNat < a.toNat then 1
    else lexCmp as bs

/-- The sort comparator of `getSuggestions` (lines 71-78): labels in
`COMMON_TLDS` come first, ordered by their `COMMON_TLDS` index; the rest are
ordered by `localeCompare`. -/
def tldCmp (a b : JSStr) : Int :=
  if jsIndexOf commonTlds a ≠ -1 && jsIndexOf commonTlds b = -1 then -1
  else if jsIndexOf commonTlds a = -1 && jsIndexOf commonTlds b ≠ -1 then 1
  else if jsIndexOf commonTlds a ≠ -1 && jsIndexOf commonTlds b ≠ -1 then
    jsIndexOf commonTlds a - jsIndexOf commonTlds b
  else lexCmp a b

/-- Insert `x` into `l`, keeping every `y` with `le y x` before it (the
stable-insertion step). -/
def insertByB (le : JSStr → JSStr → Bool) (x : JSStr) : List JSStr → List JSStr
  | [] => [x]
  | y :: ys => if le y x then y :: insertByB le x ys else x :: y :: ys

/-- Stable insertion sort by a Boolean "less or equal" relation. -/
def sortByB (le : JSStr → JSStr → Bool) : List JSStr → List JSStr
  | [] => []
  | x :: xs => insertByB le x (sortByB le xs)

/-- Model of `Array.prototype.sort(cmp)`.  JS mandates a stable sort; for the
total preorder `tldCmp` every stable sort returns the same list, so a stable
insertion sort is a faithful model. -/
def sortWithCmp (cmp : JSStr → JSStr → Int) (l : List JSStr) : List JSStr :=
  sortByB (fun a b => cmp a b ≤ 0) l

/-- Model of `s.endsWith('.' + tld)`. -/
def endsWithDot (d : JSStr) (s : JSStr) : Bool := ('.' :: d).isSuffixOf s

/-- The `COMMON_TLDS.forEach` accumulation of the dot-free branch of
`getSuggestions` (lines 89-93): push `trimmed + '.' + tld` for each priority
label present in the label set whose completion is not already present. -/
def pushCommons (t : JSStr) (allTlds : List JSStr) (acc : List JSStr) :
    List JSStr → List JSStr
  | [] => acc
  | d :: ds =>
    if allTlds.contains d && !(acc.any (endsWithDot d)) then
      pushCommons t allTlds (acc ++ [t ++ '.' :: d]) ds
    else
      pushCommons t allTlds acc ds

/-- Embedding of `getSuggestions` (lines 53-96).  The `find(tld === trimmed)`
of the source returns `trimmed` itself when it succeeds, which the embedding
renders through a membership test. -/
def getSuggestionsL (allTlds : List JSStr) (input : JSStr) (maxResults : Nat) :
    List JSStr :=
  if jsTrim input = [] then []
  else
    let trimmed := jsLower (jsTrim input)
    if trimmed.contains '.' then
      let ps := splitChar '.' trimmed
      let pre := joinDot ps.dropLast
      let tldPart := ps.getLastD []
      if pre = [] then []
      else
        let matching := (allTlds.filter (fun d => tldPart.isPrefixOf d)).take (maxResults * 2)
        ((sortWithCmp tldCmp matching).take maxResults).map (fun d => pre ++ '.' :: d)
    else
      let selfSugg := if allTlds.contains trimmed then [trimmed ++ '.' :: trimmed] else []
      (pushCommons trimmed allTlds selfSugg commonTlds).take maxResults

/-- String-level wrapper for `getSuggestionsL`. -/
def getSuggestions (allTlds : List String) (input : String) (maxResults : Nat) :
    List String :=
  (getSuggestionsL (allTlds.map String.data) input.data maxResults).map
    (fun l => ⟨l⟩)

/-! ## State machine of the self-contained `DomainSearch` variant

The component state consists of the field value, the suggestion list, the
visibility flag of the suggestion box and the keyboard selection index
(lines 52-56).  The events model `onChange` (lines 86-98), the debounced
suggestion regeneration effect (lines 64-81), `onPaste` (lines 103-108) and
`onKeyDown` (lines 131-158). -/

/-- The static `TLDS` list of the self-contained variant. -/
def tldsV1 : List JSStr :=
  [".com".toList, ".ai".toList, ".io".toList, ".co".toList, ".app".toList,
   ".dev".toList, ".net".toList]

/-- Embedding of `buildSuggestions` (lines 37-45). -/
def buildSuggestions (input : JSStr) : List JSStr :=
  if input = [] then []
  else if input.contains '.' then []
  else tldsV1.map (fun t => input ++ t)

/-- The React state of the self-contained `DomainSearch` variant. -/
structure SearchState where
  value : JSStr
  suggestions : List JSStr
  visible : Bool
  index : Int
  deriving DecidableEq, Repr

/-- Initial state (lines 52-56): empty value, no suggestions, box hidden,
selection index `-1`. -/
def initState : SearchState := ⟨[], [], false, -1⟩

/-- Events of the input controller.  `regen` is the debounce timer firing the
suggestion-regeneration effect. -/
inductive Ev where
  | change (raw : JSStr)
  | paste (text : JSStr)
  | regen
  | down
  | up
  | enter
  | escape
  deriving DecidableEq, Repr

/-- One transition of the self-contained variant.  `change` reproduces the
length guard of `onChange`: raw text more than six characters longer than the
current value is dropped.  `regen` reproduces the `useEffect` body, which
rebuilds the suggestion list but never touches `index`.  `enter` with a
non-negative index commits `suggestions[index]`; otherwise it runs `search`,
which only closes the box (the external search call is outside the model). -/
def stepV1 (s : SearchState) : Ev → SearchState
  | .change raw =>
    if raw.length > s.value.length + 6 then s
    else { s with value := cleanL raw, visible := true }
  | .paste text => { s with value := cleanL text, visible := true }
  | .regen =>
    let c := cleanL s.value
    if c = [] then { s with suggestions := [] }
    else { s with suggestions := buildSuggestions c }
  | .down =>
    { s with visible := true,
             index := min (s.index + 1) ((s.suggestions.length : Int) - 1) }
  | .up => { s with index := max (s.index - 1) (-1) }
  | .enter =>
    if s.visible && s.index ≥ 0 then
      { s with value := s.suggestions.getD s.index.toNat [], visible := false }
    else if s.value = [] then s
    else { s with visible := false }
  | .escape => { s with visible := false }

/-- Run a sequence of events from a state. -/
def runEvents (s : SearchState) (es : List Ev) : SearchState := es.foldl stepV1 s

/-! ## Definitions modelled from the specification and claim text

These definitions follow the words of the spec and of the claims (not the
source); the theorems compare them with the source embeddings. -/

/-- Modelled from the claim text of C3 and spec section 4.1 step 2: strip a
leading URL scheme, where the spec lists `http://`, `https://` and `ftp://`. -/
def stripSchemeC3 (l : JSStr) : JSStr :=
  if ("https://".toList).isPrefixOf l then l.drop 8
  else if ("http://".toList).isPrefixOf l then l.drop 7
  else if ("ftp://".toList).isPrefixOf l then l.drop 6
  else l

/-- Boolean test for "is not the character `a`". -/
def neChar (a : Char) (c : Char) : Bool := c ≠ a

/-- Modelled from the claim text of C3: lower-case and trim, strip a leading
URL scheme and a leading `www.`, discard everything at or after the first
`/`, and discard everything before the last `@`. -/
def hostSpecC3 (l : JSStr) : JSStr :=
  let t := stripWww (stripSchemeC3 (jsTrim (jsLower l)))
  ((t.takeWhile (neChar '/')).reverse.takeWhile (neChar '@')).reverse

/-- Modelled from the amended claim C3: as `hostSpecC3`, but only the schemes
`http://` and `https://` (the ones the code strips) are removed. -/
def hostSpecHttp (l : JSStr) : JSStr :=
  let t := stripWww (stripHttp (jsTrim (jsLower l)))
  ((t.takeWhile (neChar '/')).reverse.takeWhile (neChar '@')).reverse

/-- Position of `d` in `l`, or `l.length` when `d` is absent. -/
def rankAux : List JSStr → JSStr → Nat
  | [], _ => 0
  | y :: ys, d => if y = d then 0 else rankAux ys d + 1

/-- Priority rank of a label per the spec wording: its position in the fixed
priority list, or the length of that list when it is not a priority label. -/
def rankOf (d : JSStr) : Nat := rankAux commonTlds d

/-- Code-point lexicographic "less or equal" on label strings. -/
def lexLeB : JSStr → JSStr → Bool
  | [], _ => true
  | _ :: _, [] => false
  | a :: as, b :: bs =>
    a.toNat < b.toNat || (a.toNat = b.toNat && lexLeB as bs)

/-- The ordering described by the spec: priority labels first (by priority
position), the remainder lexically. -/
def keyLeB (a b : JSStr) : Bool :=
  rankOf a < rankOf b || (rankOf a = rankOf b && lexLeB a b)

/-- Sorting by the spec ordering. -/
def specSortTlds (l : List JSStr) : List JSStr := sortByB keyLeB l

/-- Modelled from the claim text of C6: for dotted input, all labels of the
LabelSet starting with the final partial label, ordered priority-first then
lexically, truncated to `max` — with no restriction to the first `2*max`
matches. -/
def suggestDotClaim (allTlds : List JSStr) (input : JSStr) (maxResults : Nat) :
    List JSStr :=
  let trimmed := jsLower (jsTrim input)
  let ps := splitChar '.' trimmed
  let pre := joinDot ps.dropLast
  let tldPart := ps.getLastD []
  if pre = [] then []
  else
    ((specSortTlds (allTlds.filter (fun d => tldPart.isPrefixOf d))).take maxResults).map
      (fun d => pre ++ '.' :: d)

/-- Keep the first occurrence of every element. -/
def dedupKeep : List JSStr → List JSStr
  | [] => []
  | x :: xs => x :: (dedupKeep xs).filter (fun y => y ≠ x)

/-- Modelled from the claim text of C7: for dot-free input, the priority
labels present in the LabelSet first (in priority order), followed by the
remaining labels of the LabelSet in lexical order, deduplicated and truncated
to `max`. -/
def suggestNoDotClaim (allTlds : List JSStr) (input : JSStr) (maxResults : Nat) :
    List JSStr :=
  let t := jsLower (jsTrim input)
  ((dedupKeep
      (commonTlds.filter (fun d => allTlds.contains d) ++
       sortByB lexLeB (allTlds.filter (fun d => !(commonTlds.contains d))))).take
    maxResults).map (fun d => t ++ '.' :: d)

/-- Modelled from the amended claim C7: the completion of the input by itself
when the input is a member of the LabelSet, followed by the priority labels
present in the LabelSet (in priority order, skipping the input itself when it
already produced the self completion), truncated to `max`. -/
def specNoDot (allTlds : List JSStr) (t : JSStr) (maxResults : Nat) : List JSStr :=
  ((if allTlds.contains t then [t ++ '.' :: t] else []) ++
    (commonTlds.filter
        (fun d => allTlds.contains d && !(allTlds.contains t && d == t))).map
      (fun d => t ++ '.' :: d)).take maxResults

/-- No two adjacent dots. -/
def noDD : JSStr → Bool
  | a :: b :: t => !(isDot a && isDot b) && noDD (b :: t)
  | _ => true

/-- Every element except possibly the last one is nonempty. -/
def frontNonempty : List JSStr → Bool
  | [] => true
  | [_] => true
  | q :: rest => !q.isEmpty && frontNonempty rest

/-! ## Lemmas about `splitChar` -/

theorem splitChar_ne_nil (a : Char) (l : JSStr) : splitChar a l ≠ [] := by
  cases l with
  | nil => simp [splitChar]
  | cons c cs =>
    simp only [splitChar]
    split
    · simp
    · split <;> simp

theorem length_splitChar (a : Char) (l : JSStr) :
    (splitChar a l).length = l.count a + 1 := by
  induction l with
  | nil => simp [splitChar]
  | cons c cs ih =>
    by_cases h : c = a
    · simp [splitChar, if_pos h, List.count_cons, h, ih]
    · cases hs : splitChar a cs with
      | nil => exact absurd hs (splitChar_ne_nil a cs)
      | cons q qs =>
        simp only [splitChar, if_neg h, hs]
        have hlen : (q :: qs).length = cs.count a + 1 := hs ▸ ih
        simpa [List.count_cons, Ne.symm h] using hlen

theorem not_mem_splitChar (a : Char) (l : JSStr) :
    ∀ q ∈ splitChar a l, a ∉ q := by
  induction l with
  | nil => intro q hq; simp [splitChar] at hq; simp [hq]
  | cons c cs ih =>
    intro q hq
    by_cases h : c = a
    · simp only [splitChar, if_pos h, List.mem_cons] at hq
      rcases hq with rfl | hq
      · simp
      · exact ih q hq
    · cases hs : splitChar a cs with
      | nil => exact absurd hs (splitChar_ne_nil a cs)
      | cons p ps =>
        simp only [splitChar, if_neg h, hs, List.mem_cons] at hq
        rcases hq with rfl | hq
        · intro hmem
          rcases List.mem_cons.mp hmem with rfl | hmem
          · exact h rfl
          · exact ih p (hs ▸ List.mem_cons_self p ps) hmem
        · exact ih q (hs ▸ List.mem_cons_of_mem p hq)

theorem mem_of_mem_splitChar (a : Char) (l : JSStr) :
    ∀ q ∈ splitChar a l, ∀ c ∈ q, c ∈ l := by
  induction l with
  | nil =>
    intro q hq c hc
    simp [splitChar] at hq
    subst hq
    simp at hc
  | cons d cs ih =>
    intro q hq c hc
    by_cases h : d = a
    · simp only [splitChar, if_pos h, List.mem_cons] at hq
      rcases hq with rfl | hq
      · simp at hc
      · exact List.mem_cons_of_mem _ (ih q hq c hc)
    · cases hs : splitChar a cs with
      | nil => exact absurd hs (splitChar_ne_nil a cs)
      | cons p ps =>
        simp only [splitChar, if_neg h, hs, List.mem_cons] at hq
        rcases hq with rfl | hq
        · rcases List.mem_cons.mp hc with rfl | hc
          · exact List.mem_cons_self _ _
          · exact List.mem_cons_of_mem _
              (ih p (hs ▸ List.mem_cons_self p ps) c hc)
        · exact List.mem_cons_of_mem _
            (ih q (hs ▸ List.mem_cons_of_mem p hq) c hc)

theorem takeWhile_concat_neg (p : Char → Bool) (xs : JSStr) (c : Char)
    (h : p c = false) : (xs ++ [c]).takeWhile p = xs.takeWhile p := by
  induction xs with
  | nil => simp [h]
  | cons x xs ih =>
    cases hx : p x <;> simp [List.takeWhile_cons, hx, ih]

theorem takeWhile_append_of_ex (p : Char → Bool) (xs ys : JSStr)
    (h : ∃ x ∈ xs, p x = false) : (xs ++ ys).takeWhile p = xs.takeWhile p := by
  induction xs with
  | nil => simp at h
  | cons x xs ih =>
    cases hx : p x
    · simp [List.takeWhile_cons, hx]
    · rcases h with ⟨y, hy, hyp⟩
      rcases List.mem_cons.mp hy with rfl | hy
      · rw [hx] at hyp; cases hyp
      · simp [List.takeWhile_cons, hx, ih ⟨y, hy, hyp⟩]

theorem takeWhile_all (p : Char → Bool) (l : JSStr)
    (h : ∀ c ∈ l, p c = true) : l.takeWhile p = l := by
  induction l with
  | nil => rfl
  | cons c cs ih =>
    simp [List.takeWhile_cons, h c (List.mem_cons_self c cs),
      ih (fun d hd => h d (List.mem_cons_of_mem c hd))]

theorem getLastD_irrel {l : List JSStr} (h : l ≠ []) (d d' : JSStr) :
    l.getLastD d = l.getLastD d' := by
  rcases Option.isSome_iff_exists.mp (List.getLast?_isSome.mpr h) with ⟨x, hx⟩
  simp [List.getLastD_eq_getLast?, hx]

theorem neChar_self (a : Char) : neChar a a = false := by simp [neChar]

theorem neChar_of_ne {a c : Char} (h : c ≠ a) : neChar a c = true := by
  simp [neChar, h]

theorem splitChar_headD (a : Char) (l : JSStr) :
    (splitChar a l).headD [] = l.takeWhile (neChar a) := by
  induction l with
  | nil => rfl
  | cons c cs ih =>
    by_cases h : c = a
    · simp [splitChar, if_pos h, List.takeWhile_cons, h, neChar_self]
    · cases hs : splitChar a cs with
      | nil => exact absurd hs (splitChar_ne_nil a cs)
      | cons q qs =>
        simp only [splitChar, if_neg h, hs]
        have ih' : q = cs.takeWhile (neChar a) := by simpa [hs] using ih
        simp [List.takeWhile_cons, neChar_of_ne h, ih']

theorem splitChar_getLastD (a : Char) (l : JSStr) :
    (splitChar a l).getLastD [] = (l.reverse.takeWhile (neChar a)).reverse := by
  induction l with
  | nil => rfl
  | cons c cs ih =>
    by_cases h : c = a
    · simp only [splitChar, if_pos h, List.getLastD_cons, List.reverse_cons]
      rw [takeWhile_concat_neg _ _ _ (by simp [h, neChar_self]), ih]
    · cases hs : splitChar a cs with
      | nil => exact absurd hs (splitChar_ne_nil a cs)
      | cons q qs =>
        have hlen : (q :: qs).length = cs.count a + 1 := hs ▸ length_splitChar a cs
        simp only [splitChar, if_neg h, hs, List.getLastD_cons, List.reverse_cons]
        cases qs with
        | nil =>
          have hcount : cs.count a = 0 := by simpa using hlen
          have hnotm : a ∉ cs := List.count_eq_zero.mp hcount
          have hall : ∀ x ∈ cs.reverse, neChar a x = true := by
            intro x hx
            exact neChar_of_ne (fun hxa => hnotm (hxa ▸ List.mem_reverse.mp hx))
          have hcq : q = cs := by
            have hq := ih
            rw [hs] at hq
            simpa [takeWhile_all _ _ hall] using hq
          have hc1 : List.takeWhile (neChar a) [c] = [c] := by
            simp [List.takeWhile_cons, neChar_of_ne h]
          rw [List.takeWhile_append_of_pos hall, hc1]
          simp [hcq, List.getLastD]
        | cons q' qs' =>
          have hmem : a ∈ cs := by
            apply List.count_pos_iff.mp
            have : qs'.length + 1 = cs.count a := by simpa using hlen
            omega
          rw [takeWhile_append_of_ex _ _ _
            ⟨a, List.mem_reverse.mpr hmem, neChar_self a⟩]
          rw [getLastD_irrel (by simp) (c :: q) q]
          rw [← List.getLastD_cons [] q (q' :: qs'), ← hs]
          exact ih

theorem splitChar_of_not_mem {a : Char} {l : JSStr} (h : a ∉ l) :
    splitChar a l = [l] := by
  induction l with
  | nil => rfl
  | cons c cs ih =>
    have hca : ¬ c = a := fun hc => h (hc ▸ List.mem_cons_self c cs)
    rw [splitChar, if_neg hca, ih (fun hm => h (List.mem_cons_of_mem c hm))]

theorem splitChar_append_cons (a : Char) (q t : JSStr) (hq : a ∉ q) :
    splitChar a (q ++ a :: t) = q :: splitChar a t := by
  induction q with
  | nil => simp [splitChar]
  | cons c cs ih =>
    have hca : ¬ c = a := fun hc => hq (hc ▸ List.mem_cons_self c cs)
    rw [List.cons_append, splitChar, if_neg hca,
      ih (fun hm => hq (List.mem_cons_of_mem c hm))]

/-! ## Lemmas about `joinDot` -/

theorem joinDot_singleton (q : JSStr) : joinDot [q] = q := by
  simp [joinDot, List.intercalate, List.intersperse]

theorem joinDot_cons_cons (q q' : JSStr) (rest : List JSStr) :
    joinDot (q :: q' :: rest) = q ++ '.' :: joinDot (q' :: rest) := by
  simp [joinDot, List.intercalate, List.intersperse]

theorem splitChar_joinDot (qs : List JSStr) (hne : qs ≠ [])
    (hdf : ∀ q ∈ qs, ('.' : Char) ∉ q) : splitChar '.' (joinDot qs) = qs := by
  induction qs with
  | nil => exact absurd rfl hne
  | cons q rest ih =>
    cases rest with
    | nil =>
      rw [joinDot_singleton]
      exact splitChar_of_not_mem (hdf q (List.mem_cons_self q []))
    | cons q' rest' =>
      rw [joinDot_cons_cons,
        splitChar_append_cons _ _ _ (hdf q (List.mem_cons_self q _)),
        ih (by simp) (fun p hp => hdf p (List.mem_cons_of_mem _ hp))]

theorem mem_joinDot {c : Char} {qs : List JSStr} (h : c ∈ joinDot qs) :
    c = '.' ∨ ∃ q ∈ qs, c ∈ q := by
  induction qs with
  | nil => simp [joinDot, List.intercalate] at h
  | cons q rest ih =>
    cases rest with
    | nil =>
      rw [joinDot_singleton] at h
      exact Or.inr ⟨q, List.mem_cons_self q [], h⟩
    | cons q' rest' =>
      rw [joinDot_cons_cons] at h
      rcases List.mem_append.mp h with hq | hd
      · exact Or.inr ⟨q, List.mem_cons_self q _, hq⟩
      · rcases List.mem_cons.mp hd with rfl | hd
        · exact Or.inl rfl
        · rcases ih hd with hdot | ⟨p, hp, hcp⟩
          · exact Or.inl hdot
          · exact Or.inr ⟨p, List.mem_cons_of_mem _ hp, hcp⟩

/-! ## The host extraction of `clean` (claim C3) -/

theorem ite_nil_self (r : JSStr) : (if r = [] then [] else r) = r := by
  split
  · exact (by assumption : r = []).symm
  · rfl

theorem cleanL_eq_hostSpecHttp (l : JSStr) : cleanL l = hostSpecHttp l := by
  by_cases hl : l = []
  · subst hl; rfl
  · rw [cleanL, if_neg hl, splitChar_headD, splitChar_getLastD]
    rw [hostSpecHttp]
    exact ite_nil_self _

/-! ## Lemmas about `runsToDot` and `noDD` -/

theorem runsToDotAux_of_not (p : Char → Bool) (l : JSStr)
    (h : ∀ c ∈ l, p c = false) : ∀ b, runsToDotAux p b l = l := by
  induction l with
  | nil => intro b; rfl
  | cons c cs ih =>
    intro b
    rw [runsToDotAux, if_neg (by simp [h c (List.mem_cons_self c cs)]),
      ih (fun d hd => h d (List.mem_cons_of_mem c hd)) false]

theorem head_runsToDotAux_true (cs : JSStr) :
    (runsToDotAux isDot true cs).head? ≠ some '.' := by
  induction cs with
  | nil => simp [runsToDotAux]
  | cons c cs ih =>
    by_cases hc : isDot c = true
    · rw [runsToDotAux, if_pos (by simp [hc])]
      simpa using ih
    · rw [runsToDotAux, if_neg (by simp at hc; simp [hc])]
      have : ¬ c = '.' := by simpa [isDot] using hc
      simp [this]

theorem noDD_cons_of_not_dot {c : Char} (hc : isDot c = false) {l : JSStr}
    (hl : noDD l = true) : noDD (c :: l) = true := by
  cases l with
  | nil => rfl
  | cons b t => simp [noDD, hc, hl]

theorem noDD_cons_dot {l : JSStr} (hl : noDD l = true)
    (hh : l.head? ≠ some '.') : noDD ('.' :: l) = true := by
  cases l with
  | nil => rfl
  | cons b t =>
    have hb : isDot b = false := by
      simp only [isDot, decide_eq_false_iff_not]
      intro hbd
      exact hh (by simp [hbd])
    simp [noDD, hb, hl]

theorem noDD_tail {c : Char} {l : JSStr} (h : noDD (c :: l) = true) :
    noDD l = true := by
  cases l with
  | nil => rfl
  | cons b t =>
    simp only [noDD, Bool.and_eq_true] at h
    exact h.2

theorem noDD_head_of_dot {l : JSStr} (h : noDD ('.' :: l) = true) :
    l.head? ≠ some '.' := by
  cases l with
  | nil => simp
  | cons b t =>
    intro hb
    have hb' : b = '.' := by simpa using hb
    subst hb'
    simp [noDD, isDot] at h

theorem noDD_runsToDotAux (l : JSStr) : ∀ b, noDD (runsToDotAux isDot b l) = true := by
  induction l with
  | nil => intro b; rfl
  | cons c cs ih =>
    intro b
    by_cases hc : isDot c = true
    · cases b
      · rw [runsToDotAux, if_pos (by simp [hc])]
        exact noDD_cons_dot (ih true) (head_runsToDotAux_true cs)
      · rw [runsToDotAux, if_pos (by simp [hc])]
        exact ih true
    · rw [runsToDotAux, if_neg (by simp at hc; simp [hc])]
      exact noDD_cons_of_not_dot (by simpa using hc) (ih false)

theorem noDD_runsToDot (l : JSStr) : noDD (runsToDot isDot l) = true :=
  noDD_runsToDotAux l false

theorem runsToDotAux_eq_self {l : JSStr} (h : noDD l = true) :
    ∀ b, (b = true → l.head? ≠ some '.') → runsToDotAux isDot b l = l := by
  induction l with
  | nil => intro b _; rfl
  | cons c cs ih =>
    intro b hb
    by_cases hc : isDot c = true
    · have hcd : c = '.' := by simpa [isDot] using hc
      cases b
      · rw [runsToDotAux, if_pos (by simp [hc])]
        subst hcd
        rw [ih (noDD_tail h) true (fun _ => noDD_head_of_dot h)]
        simp
      · exact absurd (by simp [hcd]) (hb rfl)
    · rw [runsToDotAux, if_neg (by simp at hc; simp [hc])]
      rw [ih (noDD_tail h) false (by simp)]

theorem runsToDot_eq_self {l : JSStr} (h : noDD l = true) :
    runsToDot isDot l = l :=
  runsToDotAux_eq_self h false (by simp)

theorem mem_runsToDotAux (p : Char → Bool) {c : Char} (l : JSStr) :
    ∀ b, c ∈ runsToDotAux p b l → c = '.' ∨ c ∈ l := by
  induction l with
  | nil => intro b hb; simp [runsToDotAux] at hb
  | cons d cs ih =>
    intro b hb
    by_cases hd : p d = true
    · cases b
      · rw [runsToDotAux, if_pos hd] at hb
        rcases List.mem_cons.mp hb with rfl | hb
        · exact Or.inl rfl
        · rcases ih true hb with h1 | h1
          · exact Or.inl h1
          · exact Or.inr (List.mem_cons_of_mem d h1)
      · rw [runsToDotAux, if_pos hd] at hb
        rcases ih true hb with h1 | h1
        · exact Or.inl h1
        · exact Or.inr (List.mem_cons_of_mem d h1)
    · rw [runsToDotAux, if_neg (by simp [hd])] at hb
      rcases List.mem_cons.mp hb with rfl | hb
      · exact Or.inr (List.mem_cons_self c cs)
      · rcases ih false hb with h1 | h1
        · exact Or.inl h1
        · exact Or.inr (List.mem_cons_of_mem d h1)

theorem noDD_of_no_dot {l : JSStr} (h : ∀ c ∈ l, isDot c = false) :
    noDD l = true := by
  induction l with
  | nil => rfl
  | cons c cs ih =>
    exact noDD_cons_of_not_dot (h c (List.mem_cons_self c cs))
      (ih (fun d hd => h d (List.mem_cons_of_mem c hd)))

/-! ## The sanitize pipeline on already-canonical characters -/

theorem allowed_vals {c : Char} (h : allowedChar c = true) :
    (97 ≤ c.toNat ∧ c.toNat ≤ 122) ∨ (48 ≤ c.toNat ∧ c.toNat ≤ 57) ∨
      c = '.' ∨ c = '-' := by
  simp only [allowedChar, Bool.or_eq_true, Bool.and_eq_true,
    decide_eq_true_eq] at h
  tauto

theorem jsLowerChar_allowed {c : Char} (h : allowedChar c = true) :
    jsLowerChar c = c := by
  have hng : ¬ ((65 ≤ c.toNat && c.toNat ≤ 90) = true) := by
    simp only [Bool.and_eq_true, decide_eq_true_eq, not_and]
    rcases allowed_vals h with ⟨h1, h2⟩ | ⟨h1, h2⟩ | rfl | rfl
    · omega
    · omega
    · decide
    · decide
  rw [jsLowerChar, if_neg hng]

theorem allowed_not_ws {c : Char} (h : allowedChar c = true) :
    isJsWs c = false := by
  by_contra hne
  have hw : isJsWs c = true := by simpa using hne
  simp only [isJsWs, Bool.or_eq_true, decide_eq_true_eq] at hw
  rcases hw with ((((((((rfl | rfl) | rfl) | rfl) | rfl) | rfl) | rfl) | rfl) | rfl) <;>
    exact absurd h (by decide)

theorem allowed_not_punct {c : Char} (h : allowedChar c = true) :
    (if c = '，' || c = '。' then '.' else c) = c := by
  have h1 : ¬ c = '，' := fun hc => by subst hc; exact absurd h (by decide)
  have h2 : ¬ c = '。' := fun hc => by subst hc; exact absurd h (by decide)
  simp [h1, h2]

theorem allowed_not_commaSpace {c : Char} (h : allowedChar c = true) :
    isCommaSpace c = false := by
  have h1 : ¬ c = ',' := fun hc => by subst hc; exact absurd h (by decide)
  have h2 : ¬ c = ' ' := fun hc => by subst hc; exact absurd h (by decide)
  simp [isCommaSpace, h1, h2]

theorem allowed_dot : allowedChar '.' = true := by decide

theorem map_self {f : Char → Char} {l : JSStr} (h : ∀ c ∈ l, f c = c) :
    l.map f = l := by
  induction l with
  | nil => rfl
  | cons c cs ih =>
    rw [List.map_cons, h c (List.mem_cons_self c cs),
      ih (fun d hd => h d (List.mem_cons_of_mem c hd))]

theorem dropWhile_all_false (p : Char → Bool) (l : JSStr)
    (h : ∀ c ∈ l, p c = false) : l.dropWhile p = l := by
  cases l with
  | nil => rfl
  | cons c cs =>
    rw [List.dropWhile_cons, if_neg (by simp [h c (List.mem_cons_self c cs)])]

theorem jsTrim_of_no_ws {l : JSStr} (h : ∀ c ∈ l, isJsWs c = false) :
    jsTrim l = l := by
  rw [jsTrim, dropWhile_all_false _ _ h,
    dropWhile_all_false _ _ (fun c hc => h c (List.mem_reverse.mp hc)),
    List.reverse_reverse]

theorem jsLower_of_allowed {l : JSStr} (h : ∀ c ∈ l, allowedChar c = true) :
    jsLower l = l :=
  map_self (fun c hc => jsLowerChar_allowed (h c hc))

theorem mem_runsToDot_allowed {l : JSStr} (h : ∀ c ∈ l, allowedChar c = true) :
    ∀ c ∈ runsToDot isDot l, allowedChar c = true := by
  intro c hc
  rcases mem_runsToDotAux isDot l false hc with rfl | hcl
  · exact allowed_dot
  · exact h c hcl

theorem sanitizeChars_of_allowed {l : JSStr} (h : ∀ c ∈ l, allowedChar c = true) :
    sanitizeChars l = runsToDot isDot l := by
  rw [sanitizeChars, jsLower_of_allowed h,
    jsTrim_of_no_ws (fun c hc => allowed_not_ws (h c hc)),
    map_self (fun c hc => allowed_not_punct (h c hc)),
    show runsToDot isCommaSpace l = l from
      runsToDotAux_of_not _ _ (fun c hc => allowed_not_commaSpace (h c hc)) false,
    List.filter_eq_self.mpr (mem_runsToDot_allowed h)]

theorem mem_sanitizeChars_allowed (l : JSStr) :
    ∀ c ∈ sanitizeChars l, allowedChar c = true := by
  intro c hc
  exact (List.mem_filter.mp hc).2

/-! ## Structure of the parts of a collapsed string -/

theorem frontNonempty_tail {q : JSStr} {rest : List JSStr}
    (h : frontNonempty (q :: rest) = true) : frontNonempty rest = true := by
  cases rest with
  | nil => rfl
  | cons r t =>
    simp only [frontNonempty, Bool.and_eq_true] at h
    exact h.2

theorem frontNonempty_drop {l : List JSStr} (h : frontNonempty l = true) :
    ∀ j, frontNonempty (l.drop j) = true := by
  induction l with
  | nil => intro j; simp [List.drop_nil]; rfl
  | cons q rest ih =>
    intro j
    cases j with
    | zero => exact h
    | succ j => exact ih (frontNonempty_tail h) j

theorem frontNonempty_cons {q : JSStr} {rest : List JSStr} (hq : q ≠ [])
    (h : frontNonempty rest = true) : frontNonempty (q :: rest) = true := by
  cases rest with
  | nil => rfl
  | cons r t => simp [frontNonempty, h, List.isEmpty_iff, hq]

theorem splitChar_front {l : JSStr} (h : noDD l = true) :
    frontNonempty ((splitChar '.' l).drop 1) = true ∧
      (l.head? ≠ some '.' → frontNonempty (splitChar '.' l) = true) := by
  induction l with
  | nil => exact ⟨rfl, fun _ => rfl⟩
  | cons c cs ih =>
    by_cases hc : c = '.'
    · subst hc
      constructor
      · show frontNonempty ((([] : JSStr) :: splitChar '.' cs).drop 1) = true
        cases cs with
        | nil => rfl
        | cons b t =>
          exact (ih (noDD_tail h)).2 (noDD_head_of_dot h)
      · intro hh
        simp at hh
    · cases hs : splitChar '.' cs with
      | nil => exact absurd hs (splitChar_ne_nil '.' cs)
      | cons q qs =>
        have hrec := ih (noDD_tail h)
        rw [hs] at hrec
        have hsplit : splitChar '.' (c :: cs) = (c :: q) :: qs := by
          rw [splitChar, if_neg hc, hs]
        rw [hsplit]
        constructor
        · exact hrec.1
        · intro _
          exact frontNonempty_cons (by simp) hrec.1

theorem noDD_append_dot {q m : JSStr} (hq : ('.' : Char) ∉ q)
    (hm : noDD ('.' :: m) = true) : noDD (q ++ '.' :: m) = true := by
  induction q with
  | nil => exact hm
  | cons c cst ih =>
    have hc : isDot c = false := by
      simp only [isDot, decide_eq_false_iff_not]
      exact fun hcd => hq (hcd ▸ List.mem_cons_self c cst)
    exact noDD_cons_of_not_dot hc (ih (fun hmem => hq (List.mem_cons_of_mem c hmem)))

theorem head_joinDot_ne_dot {q : JSStr} {rest : List JSStr}
    (hq : q ≠ [] ∨ rest = []) (hdf : ('.' : Char) ∉ q) :
    (joinDot (q :: rest)).head? ≠ some '.' := by
  cases rest with
  | nil =>
    rw [joinDot_singleton]
    cases q with
    | nil => simp
    | cons a t =>
      intro ha
      have ha' : a = '.' := by simpa using ha
      exact hdf (ha' ▸ List.mem_cons_self a t)
  | cons r rest' =>
    rw [joinDot_cons_cons]
    rcases hq with hq | hq
    · cases q with
      | nil => exact absurd rfl hq
      | cons a t =>
        intro ha
        have ha' : a = '.' := by simpa using ha
        exact hdf (ha' ▸ List.mem_cons_self a t)
    · cases hq

theorem noDD_joinDot {qs : List JSStr} (hne : qs ≠ [])
    (hfront : frontNonempty qs = true)
    (hdf : ∀ q ∈ qs, ('.' : Char) ∉ q) : noDD (joinDot qs) = true := by
  induction qs with
  | nil => exact absurd rfl hne
  | cons q rest ih =>
    cases rest with
    | nil =>
      rw [joinDot_singleton]
      refine noDD_of_no_dot (fun c hc => ?_)
      simp only [isDot, decide_eq_false_iff_not]
      exact fun hcd => hdf q (List.mem_cons_self q []) (hcd ▸ hc)
    | cons r rest' =>
      rw [joinDot_cons_cons]
      have hqne : q ≠ [] := by
        simp only [frontNonempty, Bool.and_eq_true, Bool.not_eq_true'] at hfront
        exact fun hq => by simp [hq] at hfront
      have hm : noDD (joinDot (r :: rest')) = true :=
        ih (by simp) (frontNonempty_tail hfront)
          (fun p hp => hdf p (List.mem_cons_of_mem q hp))
      have hrne : r ≠ [] ∨ rest' = [] := by
        cases rest' with
        | nil => exact Or.inr rfl
        | cons r2 t2 =>
          refine Or.inl ?_
          have hf2 := frontNonempty_tail hfront
          simp only [frontNonempty, Bool.and_eq_true, Bool.not_eq_true'] at hf2
          exact fun hr => by simp [hr] at hf2
      have hdd : noDD ('.' :: joinDot (r :: rest')) = true := by
        cases hjm : joinDot (r :: rest') with
        | nil => rfl
        | cons a t =>
          refine noDD_cons_dot (hjm ▸ hm) ?_
          rw [← hjm]
          exact head_joinDot_ne_dot hrne
            (hdf r (List.mem_cons_of_mem q (List.mem_cons_self r rest')))
      exact noDD_append_dot (hdf q (List.mem_cons_self q _)) hdd

/-! ## Invariants of `cleanDomainInputL` (claims C1, C4, C5) -/

theorem cleanDomainInputL_eq (l : JSStr) :
    cleanDomainInputL l =
      if (splitChar '.' (sanitizeChars l)).length > 5 then
        joinDot ((splitChar '.' (sanitizeChars l)).drop
          ((splitChar '.' (sanitizeChars l)).length - 4))
      else sanitizeChars l := rfl

theorem cleanDomainInputL_allowed (l : JSStr) :
    ∀ c ∈ cleanDomainInputL l, allowedChar c = true := by
  intro c hc
  rw [cleanDomainInputL_eq] at hc
  split at hc
  · rcases mem_joinDot hc with rfl | ⟨q, hq, hcq⟩
    · exact allowed_dot
    · exact mem_sanitizeChars_allowed l c
        (mem_of_mem_splitChar '.' (sanitizeChars l) q (List.drop_subset _ _ hq) c hcq)
  · exact mem_sanitizeChars_allowed l c hc

theorem cleanDomainInput_invariants {l : JSStr}
    (h : ∀ c ∈ l, allowedChar c = true) :
    noDD (cleanDomainInputL l) = true ∧
      (splitChar '.' (cleanDomainInputL l)).length ≤ 5 := by
  have hclean : sanitizeChars l = runsToDot isDot l := sanitizeChars_of_allowed h
  have hnodd : noDD (sanitizeChars l) = true := by
    rw [hclean]; exact noDD_runsToDot l
  rw [cleanDomainInputL_eq]
  by_cases hlen : (splitChar '.' (sanitizeChars l)).length > 5
  · rw [if_pos hlen]
    have hqslen : ((splitChar '.' (sanitizeChars l)).drop
        ((splitChar '.' (sanitizeChars l)).length - 4)).length = 4 := by
      rw [List.length_drop]
      omega
    have hqne : (splitChar '.' (sanitizeChars l)).drop
        ((splitChar '.' (sanitizeChars l)).length - 4) ≠ [] := by
      intro hq
      rw [hq] at hqslen
      simp at hqslen
    have hdf : ∀ q ∈ (splitChar '.' (sanitizeChars l)).drop
        ((splitChar '.' (sanitizeChars l)).length - 4), ('.' : Char) ∉ q :=
      fun q hq => not_mem_splitChar '.' (sanitizeChars l) q (List.drop_subset _ _ hq)
    have hfront : frontNonempty ((splitChar '.' (sanitizeChars l)).drop
        ((splitChar '.' (sanitizeChars l)).length - 4)) = true := by
      have h1 := (splitChar_front hnodd).1
      have h2 := frontNonempty_drop h1 ((splitChar '.' (sanitizeChars l)).length - 5)
      rw [List.drop_drop] at h2
      have harith : 1 + ((splitChar '.' (sanitizeChars l)).length - 5) =
          (splitChar '.' (sanitizeChars l)).length - 4 := by omega
      rw [harith] at h2
      exact h2
    refine ⟨noDD_joinDot hqne hfront hdf, ?_⟩
    rw [splitChar_joinDot _ hqne hdf, hqslen]
    omega
  · rw [if_neg hlen]
    exact ⟨hnodd, by omega⟩

theorem cleanDomainInputL_fixed {l : JSStr}
    (hall : ∀ c ∈ l, allowedChar c = true) (hnodd : noDD l = true)
    (hlen : (splitChar '.' l).length ≤ 5) : cleanDomainInputL l = l := by
  rw [cleanDomainInputL_eq, sanitizeChars_of_allowed hall, runsToDot_eq_self hnodd,
    if_neg (by omega)]

/-! ## Claim C1: idempotence of the Normalizer -/

/-- Claim C1 as stated is false: neither normalizer variant is idempotent on
all inputs.  `cleanDomainInput` maps `a.?.b` to `a..b` (the character filter
runs after dot collapsing and can create new dot runs), and a second pass
collapses `a..b` to `a.b`.  `clean` maps `@www.example.com` to
`www.example.com`, and a second pass strips the now-leading `www.`. -/
theorem c1_counterexample :
    cleanDomainInput "a.?.b" = "a..b" ∧
    cleanDomainInput (cleanDomainInput "a.?.b") = "a.b" ∧
    cleanDomainInput (cleanDomainInput "a.?.b") ≠ cleanDomainInput "a.?.b" ∧
    clean "@www.example.com" = "www.example.com" ∧
    clean (clean "@www.example.com") = "example.com" ∧
    clean (clean "@www.example.com") ≠ clean "@www.example.com" := by
  decide

/-- Claim C1 (amended): the strict Normalizer `cleanDomainInput` is
idempotent on every input whose characters already lie in the canonical
character set `[a-z0-9.-]`. -/
theorem c1_idempotent_on_canonical :
    ∀ l : JSStr, (∀ c ∈ l, allowedChar c = true) →
      cleanDomainInputL (cleanDomainInputL l) = cleanDomainInputL l := by
  intro l h
  obtain ⟨hnodd, hlen⟩ := cleanDomainInput_invariants h
  exact cleanDomainInputL_fixed (cleanDomainInputL_allowed l) hnodd hlen

theorem c1_idempotent_on_canonical_witness :
    cleanDomainInputL (cleanDomainInputL "a.b.c.d.e.f".toList) =
      cleanDomainInputL "a.b.c.d.e.f".toList :=
  c1_idempotent_on_canonical "a.b.c.d.e.f".toList (by decide)

/-! ## Claim C2: the submit-time TLD autocompletion -/

/-- Claim C2 as stated is false at the empty string: both autocompletion
functions return the empty string unchanged although it contains no dot
(the claim would require appending `.com`); `autoCompleteDomain` moreover
rewrites `example.`, which contains a dot, to `example.com`. -/
theorem c2_counterexample :
    smartAutoComplete "" = "" ∧ smartAutoComplete "" ≠ ".com" ∧
    autoCompleteDomain "example." = "example.com" ∧
    autoCompleteDomain "example." ≠ "example." := by
  decide

/-- Claim C2 (amended): `smartAutoComplete` returns every string containing
a dot unchanged, appends `.com` to every nonempty string without a dot, and
returns the empty string unchanged. -/
theorem c2_autoTld :
    (∀ l : JSStr, l.contains '.' = true →
      smartAutoCompleteL popularDefault l = l) ∧
    (∀ l : JSStr, l ≠ [] → l.contains '.' = false →
      smartAutoCompleteL popularDefault l = l ++ ".com".toList) ∧
    smartAutoCompleteL popularDefault [] = [] ∧
    smartAutoComplete "example" = "example.com" ∧
    smartAutoComplete "example.io" = "example.io" := by
  refine ⟨?_, ?_, rfl, by decide, by decide⟩
  · intro l hl
    by_cases hn : l = []
    · simp [hn, smartAutoCompleteL]
    · rw [smartAutoCompleteL, if_neg hn, if_pos hl]
  · intro l hn hl
    rw [smartAutoCompleteL, if_neg hn, if_neg (by rw [hl]; simp)]
    rfl

theorem c2_autoTld_witness :
    smartAutoCompleteL popularDefault "nic.bn".toList = "nic.bn".toList ∧
    smartAutoCompleteL popularDefault "example".toList =
      "example".toList ++ ".com".toList :=
  ⟨c2_autoTld.1 "nic.bn".toList (by decide),
   c2_autoTld.2.1 "example".toList (by decide) (by decide)⟩

/-! ## Claim C3: hostname extraction of `clean` -/

/-- Claim C3 as stated is false for the scheme `ftp://` (listed as a URL
scheme by the spec): `clean` only strips `http://` and `https://`, so the
first `/` of `ftp://` truncates the input to `ftp:` instead of yielding the
hostname. -/
theorem c3_counterexample :
    cleanL "ftp://a.com".toList = "ftp:".toList ∧
    hostSpecC3 "ftp://a.com".toList = "a.com".toList ∧
    cleanL "ftp://a.com".toList ≠ hostSpecC3 "ftp://a.com".toList := by
  decide

/-- Claim C3 (amended): `clean` lower-cases and trims, strips a leading
`http://` or `https://` scheme and a leading `www.`, discards everything at
or after the first `/` and everything before the last `@`; in particular the
two examples of the claim hold. -/
theorem c3_host_extraction :
    (∀ l : JSStr, cleanL l = hostSpecHttp l) ∧
    clean "https://www.example.com/path" = "example.com" ∧
    clean "user@example.com" = "example.com" :=
  ⟨cleanL_eq_hostSpecHttp, by decide, by decide⟩

/-! ## Claim C4: output character set of the strict Normalizer -/

/-- Claim C4: every character of `cleanDomainInput`'s output lies in
`[a-z0-9.-]`, and the CJK dot equivalents `，` and `。` are replaced by an
ASCII dot rather than deleted. -/
theorem c4_output_charset :
    (∀ s : String, ∀ c ∈ (cleanDomainInput s).data, allowedChar c = true) ∧
    cleanDomainInput "example，com" = "example.com" ∧
    cleanDomainInput "example。com" = "example.com" := by
  refine ⟨fun s c hc => cleanDomainInputL_allowed s.data c hc, by decide, by decide⟩

theorem c4_output_charset_witness : allowedChar 'e' = true :=
  c4_output_charset.1 "example，com" 'e' (by decide)

/-! ## Claim C5: label truncation of the strict Normalizer -/

/-- Claim C5: when the sanitized input has more than five labels, the labels
of the output are exactly the last four labels of the sanitized input; with
five or fewer labels the output is the sanitized input itself. -/
theorem c5_label_truncation :
    (∀ l : JSStr, 5 < (splitChar '.' (sanitizeChars l)).length →
      splitChar '.' (cleanDomainInputL l) =
        (splitChar '.' (sanitizeChars l)).drop
          ((splitChar '.' (sanitizeChars l)).length - 4)) ∧
    (∀ l : JSStr, (splitChar '.' (sanitizeChars l)).length ≤ 5 →
      cleanDomainInputL l = sanitizeChars l) ∧
    cleanDomainInput "a.b.c.d.e.f" = "c.d.e.f" := by
  refine ⟨?_, ?_, by decide⟩
  · intro l hlen
    rw [cleanDomainInputL_eq, if_pos hlen]
    have hqslen : ((splitChar '.' (sanitizeChars l)).drop
        ((splitChar '.' (sanitizeChars l)).length - 4)).length = 4 := by
      rw [List.length_drop]
      omega
    have hqne : (splitChar '.' (sanitizeChars l)).drop
        ((splitChar '.' (sanitizeChars l)).length - 4) ≠ [] := by
      intro hq
      rw [hq] at hqslen
      simp at hqslen
    exact splitChar_joinDot _ hqne
      (fun q hq => not_mem_splitChar '.' (sanitizeChars l) q (List.drop_subset _ _ hq))
  · intro l hlen
    rw [cleanDomainInputL_eq, if_neg (by omega)]

theorem c5_label_truncation_witness :
    splitChar '.' (cleanDomainInputL "a.b.c.d.e.f".toList) =
      (splitChar '.' (sanitizeChars "a.b.c.d.e.f".toList)).drop
        ((splitChar '.' (sanitizeChars "a.b.c.d.e.f".toList)).length - 4) :=
  c5_label_truncation.1 "a.b.c.d.e.f".toList (by decide)

/-! ## The priority comparator implements the spec ordering (claim C6) -/

theorem jsIndexOf_cases (l : List JSStr) (x : JSStr) :
    jsIndexOf l x = -1 ∨ 0 ≤ jsIndexOf l x := by
  induction l with
  | nil => exact Or.inl rfl
  | cons y ys ih =>
    by_cases hy : y = x
    · right
      rw [jsIndexOf, if_pos hy]
    · by_cases hr : jsIndexOf ys x = -1
      · left
        rw [jsIndexOf, if_neg hy, if_pos hr]
      · right
        rw [jsIndexOf, if_neg hy, if_neg hr]
        rcases ih with h | h
        · exact absurd h hr
        · omega

theorem jsIndexOf_rankAux (l : List JSStr) (x : JSStr) :
    (jsIndexOf l x = -1 ∧ rankAux l x = l.length) ∨
    (jsIndexOf l x = (rankAux l x : Int) ∧ rankAux l x < l.length) := by
  induction l with
  | nil => exact Or.inl ⟨rfl, rfl⟩
  | cons y ys ih =>
    by_cases hy : y = x
    · right
      rw [jsIndexOf, if_pos hy, rankAux, if_pos hy]
      exact ⟨rfl, by simp⟩
    · rcases ih with ⟨h1, h2⟩ | ⟨h1, h2⟩
      · left
        rw [jsIndexOf, if_neg hy, if_pos h1, rankAux, if_neg hy, h2]
        exact ⟨rfl, by simp⟩
      · right
        rw [jsIndexOf, if_neg hy, if_neg (by rw [h1]; omega), rankAux, if_neg hy, h1]
        constructor
        · push_cast
          ring
        · simp only [List.length_cons]
          omega

theorem jsIndexOf_inj {l : List JSStr} {a b : JSStr}
    (ha : jsIndexOf l a ≠ -1) (hab : jsIndexOf l a = jsIndexOf l b) : a = b := by
  induction l with
  | nil => exact absurd rfl ha
  | cons y ys ih =>
    by_cases hya : y = a <;> by_cases hyb : y = b
    · exact hya.symm.trans hyb
    · exfalso
      rw [jsIndexOf, if_pos hya, jsIndexOf, if_neg hyb] at hab
      by_cases hrb : jsIndexOf ys b = -1
      · rw [if_pos hrb] at hab
        omega
      · rw [if_neg hrb] at hab
        rcases jsIndexOf_cases ys b with h | h
        · exact hrb h
        · omega
    · exfalso
      rw [jsIndexOf, if_neg hya, jsIndexOf, if_pos hyb] at hab
      rw [jsIndexOf, if_neg hya] at ha
      by_cases hra : jsIndexOf ys a = -1
      · exact ha (by rw [if_pos hra])
      · rw [if_neg hra] at hab
        rcases jsIndexOf_cases ys a with h | h
        · exact hra h
        · omega
    · rw [jsIndexOf, if_neg hya, jsIndexOf, if_neg hyb] at hab
      rw [jsIndexOf, if_neg hya] at ha
      by_cases hra : jsIndexOf ys a = -1
      · exact absurd (by rw [if_pos hra]) ha
      · rw [if_neg hra] at hab ha
        by_cases hrb : jsIndexOf ys b = -1
        · rw [if_pos hrb] at hab
          rcases jsIndexOf_cases ys a with h | h
          · exact absurd h hra
          · omega
        · rw [if_neg hrb] at hab
          exact ih hra (by omega)

theorem lexLeB_refl (l : JSStr) : lexLeB l l = true := by
  induction l with
  | nil => rfl
  | cons x xs ih => simp [lexLeB, ih]

theorem lexCmp_le_iff (a : JSStr) : ∀ b, lexCmp a b ≤ 0 ↔ lexLeB a b = true := by
  induction a with
  | nil =>
    intro b
    cases b <;> simp [lexCmp, lexLeB]
  | cons x xs ih =>
    intro b
    cases b with
    | nil =>
      simp only [lexCmp, lexLeB]
      constructor
      · intro h; omega
      · intro h; cases h
    | cons y ys =>
      by_cases h1 : x.toNat < y.toNat
      · rw [lexCmp, if_pos h1]
        simp only [lexLeB, h1]
        constructor
        · intro _; simp
        · intro _; omega
      · by_cases h2 : y.toNat < x.toNat
        · rw [lexCmp, if_neg h1, if_pos h2]
          have hne : ¬ x.toNat = y.toNat := by omega
          simp only [lexLeB, h1, hne]
          constructor
          · intro h; omega
          · intro h; simp at h
        · have heq : x.toNat = y.toNat := by omega
          rw [lexCmp, if_neg h1, if_neg h2]
          simp [lexLeB, h1, heq, ih ys]

theorem tldCmp_le_iff (a b : JSStr) : tldCmp a b ≤ 0 ↔ keyLeB a b = true := by
  rcases jsIndexOf_rankAux commonTlds a with ⟨ha1, ha2⟩ | ⟨ha1, ha2⟩ <;>
    rcases jsIndexOf_rankAux commonTlds b with ⟨hb1, hb2⟩ | ⟨hb1, hb2⟩
  · rw [tldCmp, ha1, hb1, keyLeB, rankOf, rankOf, ha2, hb2]
    simp [lexCmp_le_iff]
  · rw [tldCmp, ha1, hb1, keyLeB, rankOf, rankOf, ha2]
    have hblt : (rankAux commonTlds b : Int) ≠ -1 := by omega
    have h3 : ¬ (commonTlds.length < rankAux commonTlds b) := by omega
    have h4 : ¬ (commonTlds.length = rankAux commonTlds b) := by omega
    simp [hblt, h3, h4]
  · rw [tldCmp, ha1, hb1, keyLeB, rankOf, rankOf, hb2]
    have halt : (rankAux commonTlds a : Int) ≠ -1 := by omega
    simp [halt, ha2]
  · rw [tldCmp, ha1, hb1, keyLeB, rankOf, rankOf]
    have halt : (rankAux commonTlds a : Int) ≠ -1 := by omega
    have hblt : (rankAux commonTlds b : Int) ≠ -1 := by omega
    simp only [halt, hblt, ne_eq, not_false_eq_true, decide_eq_true_eq]
    constructor
    · intro h
      simp at h
      by_cases hlt : rankAux commonTlds a < rankAux commonTlds b
      · simp [hlt]
      · have heqr : rankAux commonTlds a = rankAux commonTlds b := by omega
        have hab : a = b := jsIndexOf_inj (l := commonTlds)
          (by rw [ha1]; exact halt) (by rw [ha1, hb1, heqr])
        subst hab
        simp [lexLeB_refl]
    · intro h
      simp only [Bool.or_eq_true, Bool.and_eq_true, decide_eq_true_eq] at h
      have hgoal : rankAux commonTlds a ≤ rankAux commonTlds b := by
        rcases h with h | ⟨h, _⟩ <;> omega
      simp
      omega

theorem insertByB_congr {le₁ le₂ : JSStr → JSStr → Bool}
    (h : ∀ a b, le₁ a b = le₂ a b) (x : JSStr) :
    ∀ l, insertByB le₁ x l = insertByB le₂ x l := by
  intro l
  induction l with
  | nil => rfl
  | cons y ys ih => rw [insertByB, insertByB, h y x, ih]

theorem sortByB_congr {le₁ le₂ : JSStr → JSStr → Bool}
    (h : ∀ a b, le₁ a b = le₂ a b) :
    ∀ l, sortByB le₁ l = sortByB le₂ l := by
  intro l
  induction l with
  | nil => rfl
  | cons x xs ih => rw [sortByB, sortByB, ih, insertByB_congr h]

/-- The source comparator sort equals the spec-side priority/lexical sort. -/
theorem sortWithCmp_tldCmp (l : List JSStr) :
    sortWithCmp tldCmp l = specSortTlds l := by
  rw [sortWithCmp, specSortTlds]
  refine sortByB_congr (fun a b => ?_) l
  by_cases h : tldCmp a b ≤ 0
  · rw [decide_eq_true h]
    exact ((tldCmp_le_iff a b).mp h).symm
  · rw [decide_eq_false h]
    exact (Bool.eq_false_iff.mpr (fun hk => h ((tldCmp_le_iff a b).mpr hk))).symm

/-- Unfolded form of `getSuggestionsL` (the `let` bindings of the source are
expanded). -/
theorem getSuggestionsL_eq (allTlds : List JSStr) (input : JSStr) (maxR : Nat) :
    getSuggestionsL allTlds input maxR =
      if jsTrim input = [] then []
      else if (jsLower (jsTrim input)).contains '.' then
        if joinDot ((splitChar '.' (jsLower (jsTrim input))).dropLast) = [] then []
        else
          ((sortWithCmp tldCmp ((allTlds.filter (fun d =>
              ((splitChar '.' (jsLower (jsTrim input))).getLastD []).isPrefixOf d)).take
            (maxR * 2))).take maxR).map
            (fun d =>
              joinDot ((splitChar '.' (jsLower (jsTrim input))).dropLast) ++ '.' :: d)
      else
        (pushCommons (jsLower (jsTrim input)) allTlds
          (if allTlds.contains (jsLower (jsTrim input)) then
            [jsLower (jsTrim input) ++ '.' :: jsLower (jsTrim input)]
          else [])
          commonTlds).take maxR := rfl

/-! ## Claim C6: suggestions for dotted input -/

/-- Claim C6 as stated is false: `getSuggestions` keeps only the first
`2 * max` matching labels (in LabelSet order) before sorting, so a priority
label beyond that window is lost.  With `max = 1` and LabelSet
`["cb", "ca", "com"]`, input `x.c` yields `x.ca`, while the claim demands
`x.com` (priority label first among all matches). -/
theorem c6_counterexample :
    getSuggestionsL (["cb", "ca", "com"].map String.toList) "x.c".toList 1 =
      ["x.ca".toList] ∧
    suggestDotClaim (["cb", "ca", "com"].map String.toList) "x.c".toList 1 =
      ["x.com".toList] ∧
    getSuggestionsL (["cb", "ca", "com"].map String.toList) "x.c".toList 1 ≠
      suggestDotClaim (["cb", "ca", "com"].map String.toList) "x.c".toList 1 := by
  decide

/-- Claim C6 (amended): for input containing a dot with non-empty prefix,
and at most `2 * max` labels matching the final partial label,
`getSuggestions` returns exactly `prefix ++ "." ++ label` for the matching
labels, ordered priority-first (by priority-list position) then lexically,
truncated to `max`; when the prefix is empty the result is empty; the
claim's example holds as stated. -/
theorem c6_suggest_dot :
    (∀ (allTlds : List JSStr) (maxR : Nat) (input : JSStr),
      (jsLower (jsTrim input)).contains '.' = true →
      joinDot ((splitChar '.' (jsLower (jsTrim input))).dropLast) ≠ [] →
      (allTlds.filter (fun d =>
          ((splitChar '.' (jsLower (jsTrim input))).getLastD []).isPrefixOf d)).length ≤
        2 * maxR →
      getSuggestionsL allTlds input maxR =
        ((specSortTlds (allTlds.filter (fun d =>
            ((splitChar '.' (jsLower (jsTrim input))).getLastD []).isPrefixOf d))).take
          maxR).map
          (fun d =>
            joinDot ((splitChar '.' (jsLower (jsTrim input))).dropLast) ++ '.' :: d)) ∧
    (∀ (allTlds : List JSStr) (maxR : Nat) (input : JSStr),
      (jsLower (jsTrim input)).contains '.' = true →
      joinDot ((splitChar '.' (jsLower (jsTrim input))).dropLast) = [] →
      getSuggestionsL allTlds input maxR = []) ∧
    getSuggestions ["com", "co", "net"] "example.c" 8 =
      ["example.com", "example.co"] := by
  refine ⟨?_, ?_, by decide⟩
  · intro allTlds maxR input h1 h2 h3
    have htne : jsTrim input ≠ [] := by
      intro h0
      rw [h0] at h1
      simp [jsLower] at h1
    have hinner : (allTlds.filter (fun d =>
        ((splitChar '.' (jsLower (jsTrim input))).getLastD []).isPrefixOf d)).take
          (maxR * 2) =
        allTlds.filter (fun d =>
          ((splitChar '.' (jsLower (jsTrim input))).getLastD []).isPrefixOf d) :=
      List.take_of_length_le (by omega)
    rw [getSuggestionsL_eq, if_neg htne, if_pos h1, if_neg h2, hinner,
      sortWithCmp_tldCmp]
  · intro allTlds maxR input h1 h2
    by_cases htrim : jsTrim input = []
    · rw [getSuggestionsL_eq, if_pos htrim]
    · rw [getSuggestionsL_eq, if_neg htrim, if_pos h1, if_pos h2]

theorem c6_suggest_dot_witness :
    getSuggestionsL (["com", "co", "net"].map String.toList) "example.c".toList 8 =
      ((specSortTlds ((["com", "co", "net"].map String.toList).filter (fun d =>
          ((splitChar '.' (jsLower (jsTrim "example.c".toList))).getLastD
            []).isPrefixOf d))).take 8).map
        (fun d =>
          joinDot ((splitChar '.' (jsLower (jsTrim "example.c".toList))).dropLast) ++
            '.' :: d) :=
  c6_suggest_dot.1 (["com", "co", "net"].map String.toList) 8 "example.c".toList
    (by decide) (by decide) (by decide)

/-! ## The no-dot branch of `getSuggestions` (claim C7) -/

theorem single_dot_eq {s d x : JSStr} (hs : ('.' : Char) ∉ s) :
    ∀ {t : JSStr}, ('.' : Char) ∉ t → s ++ '.' :: d = t ++ '.' :: x →
      s = t ∧ d = x := by
  induction s with
  | nil =>
    intro t ht h
    cases t with
    | nil =>
      refine ⟨rfl, ?_⟩
      simpa using h
    | cons c t' =>
      exfalso
      rw [List.nil_append, List.cons_append] at h
      injection h with hc _
      exact ht (hc ▸ List.mem_cons_self c t')
  | cons c s' ih =>
    intro t ht h
    cases t with
    | nil =>
      exfalso
      rw [List.cons_append, List.nil_append] at h
      injection h with hc _
      exact hs (hc ▸ List.mem_cons_self c s')
    | cons c2 t' =>
      rw [List.cons_append, List.cons_append] at h
      injection h with hc hrest
      obtain ⟨h1, h2⟩ := ih (fun hm => hs (List.mem_cons_of_mem c hm))
        (fun hm => ht (List.mem_cons_of_mem c2 hm)) hrest
      exact ⟨by rw [hc, h1], h2⟩

theorem endsWithDot_iff {t x : JSStr} (d : JSStr) (ht : ('.' : Char) ∉ t)
    (hx : ('.' : Char) ∉ x) : endsWithDot d (t ++ '.' :: x) = true ↔ d = x := by
  constructor
  · intro h
    rw [endsWithDot, List.isSuffixOf_iff_suffix] at h
    obtain ⟨s, hs⟩ := h
    have hts : List.count '.' t = 0 := List.count_eq_zero.mpr ht
    have hxs : List.count '.' x = 0 := List.count_eq_zero.mpr hx
    have hc1 : List.count '.' (s ++ '.' :: d) = List.count '.' (t ++ '.' :: x) := by
      rw [hs]
    rw [List.count_append, List.count_append, List.count_cons, List.count_cons] at hc1
    simp at hc1
    have hsnot : ('.' : Char) ∉ s := List.count_eq_zero.mp (by omega)
    exact (single_dot_eq hsnot ht hs).2
  · rintro rfl
    rw [endsWithDot, List.isSuffixOf_iff_suffix]
    exact ⟨t, rfl⟩

theorem any_endsWithDot_map {t : JSStr} {xs : List JSStr} (d : JSStr)
    (ht : ('.' : Char) ∉ t) (hxs : ∀ x ∈ xs, ('.' : Char) ∉ x) :
    (xs.map (fun x => t ++ '.' :: x)).any (endsWithDot d) = xs.contains d := by
  rw [Bool.eq_iff_iff, List.any_eq_true]
  constructor
  · rintro ⟨y, hy, hdy⟩
    obtain ⟨x, hx, rfl⟩ := List.mem_map.mp hy
    have hdeq : d = x := (endsWithDot_iff d ht (hxs x hx)).mp hdy
    subst hdeq
    exact List.elem_iff.mpr hx
  · intro hc
    have hd : d ∈ xs := List.elem_iff.mp hc
    exact ⟨t ++ '.' :: d, List.mem_map_of_mem _ hd,
      (endsWithDot_iff d ht (hxs d hd)).mpr rfl⟩

theorem contains_singleton (u v : JSStr) : ([u].contains v) = (v == u) := by
  show List.elem v [u] = (v == u)
  rw [List.elem_cons]
  cases h : v == u <;> simp [h]

theorem pushCommons_eq (t : JSStr) (allTlds : List JSStr)
    (ht : ('.' : Char) ∉ t) :
    ∀ (ds : List JSStr) (xs : List JSStr),
      (∀ x ∈ xs, ('.' : Char) ∉ x) → (∀ d ∈ ds, ('.' : Char) ∉ d) → ds.Nodup →
      pushCommons t allTlds (xs.map (fun x => t ++ '.' :: x)) ds =
        (xs ++ ds.filter (fun d => allTlds.contains d && !(xs.contains d))).map
          (fun x => t ++ '.' :: x) := by
  intro ds
  induction ds with
  | nil =>
    intro xs _ _ _
    simp [pushCommons]
  | cons d ds' ih =>
    intro xs hxs hds hnodup
    rw [pushCommons, any_endsWithDot_map d ht hxs]
    have hdnot : ('.' : Char) ∉ d := hds d (List.mem_cons_self d ds')
    have hdsrest : ∀ d' ∈ ds', ('.' : Char) ∉ d' :=
      fun d' hd' => hds d' (List.mem_cons_of_mem d hd')
    have hdmem : d ∉ ds' := (List.nodup_cons.mp hnodup).1
    have hndrest : ds'.Nodup := (List.nodup_cons.mp hnodup).2
    by_cases hcond : (allTlds.contains d && !(xs.contains d)) = true
    · rw [if_pos hcond]
      have hmap : xs.map (fun x => t ++ '.' :: x) ++ [t ++ '.' :: d] =
          (xs ++ [d]).map (fun x => t ++ '.' :: x) := by simp
      rw [hmap, ih (xs ++ [d])
        (by
          intro x hx
          rcases List.mem_append.mp hx with hx | hx
          · exact hxs x hx
          · simp at hx
            exact hx ▸ hdnot)
        hdsrest hndrest]
      have hfilter : ds'.filter
          (fun d' => allTlds.contains d' && !((xs ++ [d]).contains d')) =
          ds'.filter (fun d' => allTlds.contains d' && !(xs.contains d')) := by
        apply List.filter_congr
        intro d' hd'
        have hne : ¬ (d' = d) := fun hd => hdmem (hd ▸ hd')
        have hca : ((xs ++ [d]).contains d') = (xs.contains d') := by
          rw [Bool.eq_iff_iff, List.elem_iff, List.elem_iff]
          constructor
          · intro hm
            rcases List.mem_append.mp hm with hm | hm
            · exact hm
            · simp at hm
              exact absurd hm hne
          · exact fun hm => List.mem_append.mpr (Or.inl hm)
        rw [hca]
      rw [hfilter, List.filter_cons, if_pos hcond]
      simp [List.append_assoc]
    · rw [if_neg hcond]
      rw [ih xs hxs hdsrest hndrest, List.filter_cons, if_neg hcond]

/-- In the no-dot branch `getSuggestions` returns exactly the self completion
(when the input itself is a known label) followed by the priority labels
present in the label set, truncated to `maxResults`. -/
theorem getSuggestionsL_no_dot (allTlds : List JSStr) (maxR : Nat) (input : JSStr)
    (hne : jsTrim input ≠ [])
    (hnd : (jsLower (jsTrim input)).contains '.' = false) :
    getSuggestionsL allTlds input maxR =
      specNoDot allTlds (jsLower (jsTrim input)) maxR := by
  have ht : ('.' : Char) ∉ jsLower (jsTrim input) := by
    intro hm
    have helem : List.elem '.' (jsLower (jsTrim input)) = true := List.elem_iff.mpr hm
    have hcf : List.elem '.' (jsLower (jsTrim input)) = false := hnd
    rw [helem] at hcf
    cases hcf
  rw [getSuggestionsL_eq, if_neg hne, if_neg (by rw [hnd]; simp)]
  have hself : (if allTlds.contains (jsLower (jsTrim input)) then
      [jsLower (jsTrim input) ++ '.' :: jsLower (jsTrim input)]
    else []) =
      (if allTlds.contains (jsLower (jsTrim input)) then [jsLower (jsTrim input)]
        else []).map (fun x => jsLower (jsTrim input) ++ '.' :: x) := by
    split <;> rfl
  rw [hself, pushCommons_eq _ _ ht commonTlds _
    (by
      intro x hx
      split at hx
      · simp at hx
        exact hx ▸ ht
      · simp at hx)
    (by decide) (by decide)]
  rw [specNoDot, List.map_append, ← hself]
  have hpred : (commonTlds.filter (fun d => allTlds.contains d &&
      !((if allTlds.contains (jsLower (jsTrim input)) then [jsLower (jsTrim input)]
        else []).contains d))) =
      (commonTlds.filter (fun d => allTlds.contains d &&
        !(allTlds.contains (jsLower (jsTrim input)) &&
          (d == jsLower (jsTrim input))))) := by
    apply List.filter_congr
    intro d _
    by_cases hc : allTlds.contains (jsLower (jsTrim input)) = true
    · rw [if_pos hc, contains_singleton, hc]
      simp
    · have hc' : allTlds.contains (jsLower (jsTrim input)) = false :=
        Bool.eq_false_iff.mpr hc
      rw [if_neg hc, hc']
      simp
  rw [hpred]

/-- Claim C7 as stated is false: the no-dot branch of `getSuggestions` draws
candidates only from the fixed priority list (plus the input itself when it
is a known label); labels of the LabelSet outside the priority set, such as
`xyz`, never appear even when fewer than `max` priority candidates exist. -/
theorem c7_counterexample :
    getSuggestionsL (["com", "xyz"].map String.toList) "example".toList 8 =
      ["example.com".toList] ∧
    suggestNoDotClaim (["com", "xyz"].map String.toList) "example".toList 8 =
      ["example.com".toList, "example.xyz".toList] ∧
    getSuggestionsL (["com", "xyz"].map String.toList) "example".toList 8 ≠
      suggestNoDotClaim (["com", "xyz"].map String.toList) "example".toList 8 := by
  decide

/-- Claim C7 (amended): for nonempty dot-free input, `getSuggestions` returns
the self completion `input.input` when the input itself is in the LabelSet,
followed by `input + "." + label` for the priority labels present in the
LabelSet in priority order (skipping a label equal to the input, which is
already present), truncated to `max`; labels outside the priority set never
appear. -/
theorem c7_suggest_no_dot :
    (∀ (allTlds : List JSStr) (maxR : Nat) (input : JSStr),
      jsTrim input ≠ [] →
      (jsLower (jsTrim input)).contains '.' = false →
      getSuggestionsL allTlds input maxR =
        specNoDot allTlds (jsLower (jsTrim input)) maxR) ∧
    getSuggestions ["com", "xyz"] "example" 8 = ["example.com"] ∧
    getSuggestions ["com", "io"] "com" 8 = ["com.com", "com.io"] :=
  ⟨getSuggestionsL_no_dot, by decide, by decide⟩

theorem c7_suggest_no_dot_witness :
    getSuggestionsL (["com", "xyz"].map String.toList) "example".toList 8 =
      specNoDot (["com", "xyz"].map String.toList)
        (jsLower (jsTrim "example".toList)) 8 :=
  c7_suggest_no_dot.1 (["com", "xyz"].map String.toList) 8 "example".toList
    (by decide) (by decide)

/-! ## Claim C8: the selection-index invariant of the self-contained variant -/

/-- Claim C8 is the spec's intent but the self-contained variant violates it:
its suggestion-regeneration effect never resets `index`.  After typing `a`,
letting the debounce fire, pressing arrow-down three times, clearing the
field and letting the debounce fire again, the reachable state has an empty
suggestion list and `index = 2`, violating both the reset-to-`-1` rule and
the bound `index ≤ len(suggestions) - 1`. -/
theorem c8_stale_index_trace :
    runEvents initState
      [Ev.change "a".toList, Ev.regen, Ev.down, Ev.down, Ev.down,
       Ev.change "".toList, Ev.regen] =
      ⟨[], [], true, 2⟩ ∧
    (2 : Int) > (([] : List JSStr).length : Int) - 1 ∧ (2 : Int) ≠ -1 := by
  decide

/-! ## Claim C9: degenerate inputs of the Suggestion Generator -/

/-- Claim C9: the Suggestion Generator returns the empty list both for empty
input (with any LabelSet) and for an empty LabelSet (with any input), rather
than failing. -/
theorem c9_degenerate_inputs :
    (∀ (allTlds : List JSStr) (maxR : Nat), getSuggestionsL allTlds [] maxR = []) ∧
    (∀ (input : JSStr) (maxR : Nat), getSuggestionsL [] input maxR = []) := by
  constructor
  · intro allTlds maxR
    rfl
  · intro input maxR
    rw [getSuggestionsL_eq]
    by_cases h1 : jsTrim input = []
    · rw [if_pos h1]
    · rw [if_neg h1]
      by_cases h2 : (jsLower (jsTrim input)).contains '.' = true
      · rw [if_pos h2]
        by_cases h3 : joinDot ((splitChar '.' (jsLower (jsTrim input))).dropLast) = []
        · rw [if_pos h3]
        · rw [if_neg h3]
          simp [sortWithCmp, sortByB]
      · rw [if_neg h2]
        have hpush : ∀ ds acc, pushCommons (jsLower (jsTrim input)) [] acc ds = acc := by
          intro ds
          induction ds with
          | nil => intro acc; rfl
          | cons d ds' ih =>
            intro acc
            rw [pushCommons]
            simp only [List.contains_nil, Bool.false_and, if_false]
            exact ih acc
        rw [if_neg (by simp), hpush]
        simp

/-! ## Claim C10: the length guard of the self-contained `onChange` -/

/-- Claim C10: a change event whose raw text is more than six characters
longer than the current field value leaves the whole component state
unchanged, so such input never reaches the Normalizer. -/
theorem c10_change_guard :
    ∀ (s : SearchState) (raw : JSStr),
      raw.length > s.value.length + 6 → stepV1 s (Ev.change raw) = s := by
  intro s raw h
  rw [stepV1, if_pos h]

theorem c10_change_guard_witness :
    stepV1 ⟨"a".toList, [], false, -1⟩ (Ev.change "0123456789".toList) =
      ⟨"a".toList, [], false, -1⟩ :=
  c10_change_guard ⟨"a".toList, [], false, -1⟩ "0123456789".toList (by decide)

end FileReplicator
